import Mathlib

/-!
Verification development for the matrix-authentication-service repository.

Part 1 embeds the frontend passkey page (`template_passkey.ts`) and the
`UserEmail` React component as pure Lean functions over explicit page /
render state.

Part 2 models the syn2mas migration engine described by the design
document: identity mapper, batch writer, checkpoint store and the
per-entity pipelines, as a state-passing functional program, and proves
the idempotency / resumability / checkpoint-soundness properties.
-/

/-! ## Part 1a: the passkey page (`src/frontend/src/template_passkey.ts`) -/

/-- A value thrown by `performAuthentication` (the `catch (e)` binder):
whether it is an `Error` instance, its `name`, and its `toString()` rendering. -/
structure ThrownValue where
  isError : Bool
  name : String
  str : String
deriving DecidableEq, Repr

/-- The DOM state the passkey page manipulates: the `#errors` container's
children (as their texts), whether `#retry-button-container` has the
`hidden` class, the hidden form input's value, and whether the form was
submitted. -/
structure PageState where
  errors : List String
  retryHidden : Bool
  response : String
  submitted : Bool
deriving DecidableEq, Repr

/-- Function `setError` appends one error `div` with the given text to `#errors`. -/
def setError (text : String) (st : PageState) : PageState :=
  { st with errors := st.errors ++ [text] }

/-- The i18n key used by `run` when WebAuthn is unsupported. -/
def notSupportedMsg : String := "frontend.account.passkeys.not_supported"

/-- The `run` function of the passkey page. `support` is the result of
`checkSupport()`; `auth` is the outcome of `performAuthentication(options)`
(`Except.ok` = resolved with a response string, `Except.error` = rejected
with a thrown value). Mirrors the source line by line: clear `#errors`;
if unsupported, show the message and return; otherwise submit the form on
success, or on rejection show the error text unless it is a
`NotAllowedError`, and unhide the retry button. -/
def run (support : Bool) (auth : Except ThrownValue String) (st : PageState) :
    PageState :=
  let st := { st with errors := [] }
  if !support then
    setError notSupportedMsg st
  else
    match auth with
    | .ok response => { st with response := response, submitted := true }
    | .error e =>
      let st :=
        if e.isError && e.name != "NotAllowedError" then setError e.str st else st
      { st with retryHidden := false }

/-! ## Part 1b: the `UserEmail` component (`src/unnamed/part_003`) -/

/-- The fragment data of one user email: id, address, confirmation time. -/
structure EmailData where
  id : String
  email : String
  confirmedAt : Option String
deriving DecidableEq, Repr

/-- Rendered UI nodes of the `UserEmail` component. `deleteButton` is the
only node whose click path reaches the `removeEmail` mutation
(via `DeleteButtonWithConfirmation` / `onRemoveClick`). -/
inductive Node where
  | fieldLabel (text : String)
  | textControl (value : String)
  | deleteButton (disabled : Bool)
  | helpMessage (text : String)
  | makePrimaryButton (disabled : Bool)
  | errorMessage (text : String)
deriving DecidableEq, Repr

/-- The i18n key of the help message shown for a primary email. -/
def cantDeletePrimaryMsg : String := "frontend.user_email.cant_delete_primary"

/-- Pure rendering of the `UserEmail` component body, following the JSX
conditionals: label, read-only text control, delete button only when not
primary, the cannot-delete help message only when primary, the
make-primary button when confirmed and not primary, the not-verified
error message when unconfirmed. -/
def renderUserEmail (data : EmailData) (isPrimary : Bool)
    (removeFetching setPrimaryFetching : Bool) : List Node :=
  [Node.fieldLabel
      (if isPrimary then "frontend.user_email.primary_email"
       else "frontend.user_email.email"),
   Node.textControl data.email]
  ++ (if isPrimary then [] else [Node.deleteButton removeFetching])
  ++ (if isPrimary then [Node.helpMessage cantDeletePrimaryMsg] else [])
  ++ (match data.confirmedAt with
      | some _ => if isPrimary then [] else [Node.makePrimaryButton setPrimaryFetching]
      | none => [])
  ++ (match data.confirmedAt with
      | some _ => []
      | none => [Node.errorMessage "frontend.user_email.not_verified"])

/-! ## Theorems for the frontend claims -/

/-- C8: with WebAuthn support absent, `run` appends exactly one
'not supported' error and returns: the resulting state is the input state
with the errors container holding that single message, independent of the
authentication outcome (so `performAuthentication` is never consulted) and
with the form not submitted; moreover the form ends submitted iff support
is present, it was already submitted, or authentication resolved
successfully — so from an unsubmitted page, submission happens only on a
successful `performAuthentication`. -/
theorem run_not_supported (auth : Except ThrownValue String) (st : PageState) :
    run false auth st = { st with errors := [notSupportedMsg] } ∧
    (∀ auth', run false auth' st = run false auth st) ∧
    (st.submitted = false →
      ∀ support, ((run support auth st).submitted = true ↔
        support = true ∧ ∃ r, auth = .ok r)) := by
  refine ⟨rfl, fun auth' => rfl, fun hsub support => ?_⟩
  constructor
  · intro h
    cases support with
    | false => simp [run, setError] at h; exact absurd h (by simp [hsub])
    | true =>
      refine ⟨rfl, ?_⟩
      cases auth with
      | ok r => exact ⟨r, rfl⟩
      | error e =>
        exfalso
        simp only [run] at h
        by_cases hc : (e.isError && e.name != "NotAllowedError") = true <;>
          simp [hc, setError, hsub] at h
  · rintro ⟨rfl, r, rfl⟩
    rfl

/-- C8 witness at a concrete page state and outcomes. -/
theorem run_not_supported_witness :
    run false (.error ⟨true, "x", "x"⟩) ⟨[], true, "", false⟩ =
      { errors := [notSupportedMsg], retryHidden := true, response := "",
        submitted := false } ∧
    ((run true (.ok "resp") ⟨[], true, "", false⟩).submitted = true ↔
      true = true ∧ ∃ r, (Except.ok (ε := ThrownValue) "resp") = .ok r) := by
  refine ⟨(run_not_supported (.error ⟨true, "x", "x"⟩) ⟨[], true, "", false⟩).1, ?_⟩
  exact (run_not_supported (.ok "resp") ⟨[], true, "", false⟩).2.2 rfl true

/-- C9: when `performAuthentication` rejects with `e`, the page ends with
the retry container unhidden, the form unsubmitted (unchanged), and the
errors container holding exactly one message — `e.toString()` — iff `e` is
an `Error` whose name is not `NotAllowedError`, and no message otherwise. -/
theorem run_rejection (e : ThrownValue) (st : PageState) :
    run true (.error e) st =
      { st with
          errors := if e.isError && e.name != "NotAllowedError" then [e.str] else [],
          retryHidden := false } := by
  by_cases hc : (e.isError && e.name != "NotAllowedError") = true
  · simp [run, hc, setError]
  · simp only [Bool.not_eq_true] at hc
    simp [run, hc, setError]

/-- C10: rendering `UserEmail` with `isPrimary = true` yields no delete
button at all (so the `removeEmail` mutation is unreachable from that
render) and shows the cannot-delete-primary help message. -/
theorem userEmail_primary_no_delete (data : EmailData)
    (removeFetching setPrimaryFetching : Bool) :
    (∀ b, Node.deleteButton b ∉
        renderUserEmail data true removeFetching setPrimaryFetching) ∧
    Node.helpMessage cantDeletePrimaryMsg ∈
        renderUserEmail data true removeFetching setPrimaryFetching := by
  constructor
  · intro b hmem
    rcases hd : data.confirmedAt with _ | c <;>
      simp [renderUserEmail, hd] at hmem
  · rcases hd : data.confirmedAt with _ | c <;>
      simp [renderUserEmail, hd]

/-! ## Part 2: the syn2mas migration engine

The migration engine itself (the `@vector-im/syn2mas` package, whose
`package.json` is the only part of it present here) is modelled from the
design document: every definition below carries a doc comment naming the
spec section it follows. -/

/-- Modelled from the spec: a LegacyRecord (§3) — an entity-typed source
row with its stable monotonic ordering key `pk` (the legacy primary key,
also used as the LegacyIdentifier), a natural key, an update timestamp,
an optional reference to a parent entity's legacy id, and its payload. -/
structure LegacyRow where
  pk : Nat
  naturalKey : Nat
  updatedAt : Nat
  parentRef : Option Nat
  payload : Nat
deriving DecidableEq, Repr

/-- Modelled from the spec: a destination row — a DestinationIdentifier
plus the transformed content (§3 TransformedRecord). -/
structure DestRow where
  id : Nat
  content : Nat
deriving DecidableEq, Repr

/-- Modelled from the spec: the error taxonomy of §7 restricted to the
errors the claims mention. -/
inductive MigError where
  | consistencyViolation
  | danglingReference (rowPk : Nat)
deriving DecidableEq, Repr

/-- Modelled from the spec: the durable engine state — the Identity
Mapper's persisted mapping `(entityType, legacyId) → destinationId`
(newest entry first), the monotone identifier allocator, the destination
table, the per-entity Checkpoint Store (newest entry first), and the
MigrationReport counters (§3, §4.3, §4.6, §6). -/
structure MigState where
  mapping : List ((Nat × Nat) × Nat)
  nextId : Nat
  dest : List DestRow
  checkpoints : List (Nat × Nat)
  rowsWritten : Nat
  rowsSkipped : Nat
  errorsLog : List (Nat × MigError)
deriving DecidableEq, Repr

/-- Modelled from the spec: the state before any migration ran. -/
def initState : MigState := ⟨[], 0, [], [], 0, 0, []⟩

/-- Modelled from the spec: `lookup(entityType, legacyId)` (§4.3) — the
non-allocating read of the Identity Mapper. -/
def lookup (s : MigState) (et lid : Nat) : Option Nat :=
  (s.mapping.find? (fun p => p.1 == (et, lid))).map (·.2)

/-- Modelled from the spec: `resolve(entityType, legacyId)` (§4.3) —
returns the existing mapping if present, otherwise deterministically
allocates the next identifier of the monotone scheme and persists the
mapping before returning it. -/
def resolve (s : MigState) (et lid : Nat) : Nat × MigState :=
  match lookup s et lid with
  | some d => (d, s)
  | none =>
    (s.nextId,
     { s with mapping := ((et, lid), s.nextId) :: s.mapping,
              nextId := s.nextId + 1 })

/-- Modelled from the spec: `load(entityType)` of the Checkpoint Store
(§4.6) — the last committed legacy ordering key for this entity type. -/
def cp (s : MigState) (et : Nat) : Option Nat :=
  (s.checkpoints.find? (fun p => p.1 == et)).map (·.2)

/-- A legacy ordering key lies strictly past a checkpoint (`none` means
no checkpoint yet, so everything is pending). -/
def cpLt : Option Nat → Nat → Bool
  | none, _ => true
  | some m, k => decide (m < k)

/-- Modelled from the spec: the extraction boundary (§4.4) — the rows of
this entity type not yet covered by the checkpoint, in source order. -/
def pending (s : MigState) (et : Nat) (rows : List LegacyRow) : List LegacyRow :=
  rows.filter (fun r => cpLt (cp s et) r.pk)

/-- Modelled from the spec: the Batch Writer's single-row write with
idempotent conflict handling (§4.5) — on a uniqueness conflict, equal
content means "already applied" (no change, nothing counted as written);
differing content is a fatal `ConsistencyViolationError`; otherwise the
row is inserted. The Bool flags whether a row was actually written. -/
def writeRow (dest : List DestRow) (r : DestRow) :
    Except MigError (List DestRow × Bool) :=
  match dest.find? (fun d => d.id == r.id) with
  | some existing =>
    if existing.content == r.content then .ok (dest, false)
    else .error .consistencyViolation
  | none => .ok (dest ++ [r], true)

/-- Modelled from the spec: transforming and writing the rows of one
Batch inside its transaction (§4.4–4.5): each row's identifier comes from
`resolve` on its legacy key, its content is a pure function of the row. -/
def commitRows (et : Nat) : MigState → List LegacyRow → Except MigError MigState
  | s, [] => .ok s
  | s, r :: rs =>
    match writeRow (resolve s et r.pk).2.dest ⟨(resolve s et r.pk).1, r.payload⟩ with
    | .error e => .error e
    | .ok (dest', wrote) =>
      commitRows et
        { (resolve s et r.pk).2 with
          dest := dest',
          rowsWritten :=
            (resolve s et r.pk).2.rowsWritten + (if wrote then 1 else 0) } rs

/-- Modelled from the spec: `commit(Batch)` (§4.5) — writes the whole
batch transactionally and, only on success, atomically advances the
checkpoint of this entity type to the batch's last legacy ordering key
(§4.6: checkpoint save is part of the same transaction as the data
write). A failed batch commits nothing: the error is returned and the
caller keeps its pre-transaction state (rollback). -/
def commitBatch (et : Nat) (s : MigState) (batch : List LegacyRow) :
    Except MigError MigState :=
  match commitRows et s batch with
  | .error e => .error e
  | .ok s' =>
    match batch.getLast? with
    | some r => .ok { s' with checkpoints := (et, r.pk) :: s'.checkpoints }
    | none => .ok s'

/-- Modelled from the spec: the batched commit loop of one Entity
Pipeline (§4.4–4.5) over an already-extracted pending list, with batches
of `B + 1` rows (the batch size is a positive integer, §6). On a batch
failure the loop stops, surfacing the error alongside the last durably
committed state. -/
def runBatches (B et : Nat) : MigState → List LegacyRow → MigState × Option MigError
  | s, [] => (s, none)
  | s, r :: rest =>
    match commitBatch et s ((r :: rest).take (B + 1)) with
    | .error e => (s, some e)
    | .ok s' => runBatches B et s' ((r :: rest).drop (B + 1))
termination_by _ l => l.length
decreasing_by simp [List.length_drop]; omega

/-- Modelled from the spec: one Entity Pipeline run (§4.4) — consult the
Checkpoint Store to skip already-migrated ranges, then stream the
remaining rows through the Batch Writer. -/
def runEntity (B et : Nat) (s : MigState) (rows : List LegacyRow) :
    MigState × Option MigError :=
  runBatches B et s (pending s et rows)

/-- Modelled from the spec: the orchestrator (§2) — runs the Entity
Pipelines over their source tables in dependency order, stopping at the
first fatal error. -/
def runMigration (B : Nat) :
    MigState → List (Nat × List LegacyRow) → MigState × Option MigError
  | s, [] => (s, none)
  | s, (et, rows) :: rest =>
    match runEntity B et s rows with
    | (s', none) => runMigration B s' rest
    | (s', some e) => (s', some e)

/-- Modelled from the spec: an interrupted entity pipeline — commits at
most `k` batches of the given pending list and then stops (§5
cancellation: stop issuing new operations, keep every durably committed
checkpoint). -/
def runSteps (B et : Nat) : MigState → List LegacyRow → Nat → MigState × Option MigError
  | s, _, 0 => (s, none)
  | s, [], _ => (s, none)
  | s, r :: rest, k + 1 =>
    match commitBatch et s ((r :: rest).take (B + 1)) with
    | .error e => (s, some e)
    | .ok s' => runSteps B et s' ((r :: rest).drop (B + 1)) k

/-- Modelled from the spec: an interruption point of the whole run — the
first `i` tables run to completion, then at most `k` batches of table
`i` are committed before the cancellation takes effect (§5). -/
def runMigrationSteps (B : Nat) :
    MigState → List (Nat × List LegacyRow) → Nat → Nat → MigState × Option MigError
  | s, [], _, _ => (s, none)
  | s, (et, rows) :: _, 0, k => runSteps B et s (pending s et rows) k
  | s, (et, rows) :: rest, i + 1, k =>
    match runEntity B et s rows with
    | (s', none) => runMigrationSteps B s' rest i k
    | (s', some e) => (s', some e)

/-- Modelled from the spec: the row-level error policies of §4.4. -/
inductive Policy where
  | skipAndReport
  | abortOnFirstError
deriving DecidableEq, Repr

/-- Modelled from the spec: the child pipeline's handling of one row that
references a parent entity (§4.3–4.4, §7): the parent identifier is read
with the non-allocating `lookup`; an absent parent mapping routes the row
to the error path — under the default policy the row is skipped and
recorded in the MigrationReport, under strict mode the run aborts with a
`DanglingReferenceError` naming the row — and never allocates the parent
mapping. -/
def processChildRow (pol : Policy) (etChild etParent : Nat) (s : MigState)
    (r : LegacyRow) : MigState × Option MigError :=
  match r.parentRef with
  | none => (s, none)
  | some p =>
    match lookup s etParent p with
    | some pid =>
      match writeRow (resolve s etChild r.pk).2.dest
          ⟨(resolve s etChild r.pk).1, r.payload + pid⟩ with
      | .error e => (s, some e)
      | .ok (dest', wrote) =>
        ({ (resolve s etChild r.pk).2 with
           dest := dest',
           rowsWritten :=
             (resolve s etChild r.pk).2.rowsWritten + (if wrote then 1 else 0) },
         none)
    | none =>
      match pol with
      | .skipAndReport =>
        ({ s with rowsSkipped := s.rowsSkipped + 1,
                  errorsLog := (r.pk, .danglingReference r.pk) :: s.errorsLog },
         none)
      | .abortOnFirstError => (s, some (.danglingReference r.pk))

/-- Modelled from the spec: the duplicate-collapse preference (§4.4) —
`prefer a b` holds when `a` survives against `b` for the same natural
key: later update timestamp wins, ties broken by legacy primary key
ascending. -/
def prefer (a b : LegacyRow) : Bool :=
  decide (b.updatedAt < a.updatedAt) ||
    (a.updatedAt == b.updatedAt && decide (a.pk < b.pk))

/-- Modelled from the spec: fold one row into the already-deduplicated
rows — replace the surviving row of its natural key if the new row is
preferred, append it if its key is new (§4.4 edge cases). -/
def dedupInsert (r : LegacyRow) : List LegacyRow → List LegacyRow
  | [] => [r]
  | x :: xs =>
    if x.naturalKey == r.naturalKey then (if prefer r x then r else x) :: xs
    else x :: dedupInsert r xs

/-- Modelled from the spec: collapse duplicate legacy rows sharing a
natural key to one destination row each (§4.4). -/
def dedup : List LegacyRow → List LegacyRow
  | [] => []
  | r :: rs => dedupInsert r (dedup rs)

/-- Source rows are extracted ordered by their stable monotonic key
(§4.4). -/
def SortedByPk (rows : List LegacyRow) : Prop :=
  List.Pairwise (fun a b => a.pk < b.pk) rows

/-- One engine operation, as a relation between durable states: every way
the engine mutates its state between two points of a run (or of two runs,
since the state is the durable store). -/
inductive Step : MigState → MigState → Prop where
  | resolveStep (et lid : Nat) (s : MigState) : Step s (resolve s et lid).2
  | commitBatchStep (et : Nat) (s s' : MigState) (batch : List LegacyRow) :
      commitBatch et s batch = .ok s' → Step s s'
  | runEntityStep (B et : Nat) (s s' : MigState) (rows : List LegacyRow)
      (e : Option MigError) : runEntity B et s rows = (s', e) → Step s s'
  | runMigrationStep (B : Nat) (s s' : MigState)
      (tables : List (Nat × List LegacyRow)) (e : Option MigError) :
      runMigration B s tables = (s', e) → Step s s'
  | childStep (pol : Policy) (etC etP : Nat) (s : MigState) (r : LegacyRow) :
      Step s (processChildRow pol etC etP s r).1

/-- A state reachable from another through any sequence of engine
operations — within one run or across crash-and-resume, since the state
models the durable store. -/
def Reachable : MigState → MigState → Prop := Relation.ReflTransGen Step

/-! ## Identity Mapper lemmas: the persisted mapping only grows -/

/-- The function `resolve` on an already-persisted mapping returns it unchanged. -/
theorem resolve_eq_of_some (s : MigState) (et lid d : Nat)
    (h : lookup s et lid = some d) : resolve s et lid = (d, s) := by
  unfold resolve; rw [h]

/-- The function `resolve` on an absent mapping allocates the next identifier and
persists the new entry. -/
theorem resolve_eq_of_none (s : MigState) (et lid : Nat)
    (h : lookup s et lid = none) :
    resolve s et lid =
      (s.nextId, { s with mapping := ((et, lid), s.nextId) :: s.mapping,
                          nextId := s.nextId + 1 }) := by
  unfold resolve; rw [h]

/-- After `resolve`, the mapping holds exactly the returned identifier. -/
theorem lookup_resolve_self (s : MigState) (et lid : Nat) :
    lookup (resolve s et lid).2 et lid = some (resolve s et lid).1 := by
  cases h : lookup s et lid with
  | some d => rw [resolve_eq_of_some s et lid d h]; exact h
  | none => rw [resolve_eq_of_none s et lid h]; simp [lookup]

/-- The function `resolve` for any key preserves every existing mapping entry. -/
theorem lookup_after_resolve (s : MigState) (et lid et' lid' d : Nat)
    (h : lookup s et lid = some d) :
    lookup (resolve s et' lid').2 et lid = some d := by
  cases h' : lookup s et' lid' with
  | some d' => rw [resolve_eq_of_some s et' lid' d' h']; exact h
  | none =>
    rw [resolve_eq_of_none s et' lid' h']
    have hne : ¬((et', lid') = ((et, lid) : Nat × Nat)) := by
      intro hk
      injection hk with h1 h2
      subst h1; subst h2
      rw [h'] at h
      cases h
    unfold lookup at h ⊢
    rw [List.find?_cons_of_neg]
    · exact h
    · simpa using hne

/-- The function `commitRows` preserves every existing mapping entry. -/
theorem lookup_after_commitRows (et' : Nat) (l : List LegacyRow) :
    ∀ (s s' : MigState) (et lid d : Nat), commitRows et' s l = .ok s' →
      lookup s et lid = some d → lookup s' et lid = some d := by
  induction l with
  | nil => intro s s' et lid d hc h; cases hc; exact h
  | cons r rs ih =>
    intro s s' et lid d hc h
    unfold commitRows at hc
    cases hw : writeRow (resolve s et' r.pk).2.dest
        ⟨(resolve s et' r.pk).1, r.payload⟩ with
    | error e => rw [hw] at hc; cases hc
    | ok q =>
      obtain ⟨dest', wrote⟩ := q
      rw [hw] at hc
      exact ih _ _ _ _ _ hc (lookup_after_resolve s et lid et' r.pk d h)

/-- The function `commitBatch` (when it succeeds) preserves every existing mapping
entry: checkpoint bookkeeping never touches the mapping. -/
theorem lookup_after_commitBatch (et' : Nat) (s s' : MigState)
    (batch : List LegacyRow) (et lid d : Nat)
    (hc : commitBatch et' s batch = .ok s')
    (h : lookup s et lid = some d) : lookup s' et lid = some d := by
  unfold commitBatch at hc
  cases hr : commitRows et' s batch with
  | error e => rw [hr] at hc; cases hc
  | ok s1 =>
    rw [hr] at hc
    have h1 := lookup_after_commitRows et' batch s s1 et lid d hr h
    cases hl : batch.getLast? with
    | some r => rw [hl] at hc; cases hc; exact h1
    | none => rw [hl] at hc; cases hc; exact h1

/-- The function `runBatches` preserves every existing mapping entry, whether it
completes or stops at a failed batch. -/
theorem lookup_after_runBatches (B et' : Nat) :
    ∀ (n : Nat) (l : List LegacyRow) (s s' : MigState) (e : Option MigError)
      (et lid d : Nat), l.length ≤ n →
      runBatches B et' s l = (s', e) →
      lookup s et lid = some d → lookup s' et lid = some d := by
  intro n
  induction n with
  | zero =>
    intro l s s' e et lid d hn hr h
    have hl : l = [] := List.eq_nil_of_length_eq_zero (Nat.le_zero.mp hn)
    subst hl
    unfold runBatches at hr
    cases hr; exact h
  | succ n ih =>
    intro l s s' e et lid d hn hr h
    match l with
    | [] => unfold runBatches at hr; cases hr; exact h
    | r :: rest =>
      unfold runBatches at hr
      cases hc : commitBatch et' s ((r :: rest).take (B + 1)) with
      | error e' => rw [hc] at hr; cases hr; exact h
      | ok s1 =>
        rw [hc] at hr
        have hlen : ((r :: rest).drop (B + 1)).length ≤ n := by
          simp only [List.length_drop, List.length_cons] at hn ⊢
          omega
        exact ih _ _ _ _ _ _ _ hlen hr
          (lookup_after_commitBatch et' s s1 _ et lid d hc h)

/-- The function `runEntity` preserves every existing mapping entry. -/
theorem lookup_after_runEntity (B et' : Nat) (s s' : MigState)
    (rows : List LegacyRow) (e : Option MigError) (et lid d : Nat)
    (hr : runEntity B et' s rows = (s', e)) (h : lookup s et lid = some d) :
    lookup s' et lid = some d :=
  lookup_after_runBatches B et' _ _ s s' e et lid d (Nat.le_refl _) hr h

/-- The function `runMigration` preserves every existing mapping entry. -/
theorem lookup_after_runMigration (B : Nat) :
    ∀ (tables : List (Nat × List LegacyRow)) (s s' : MigState)
      (e : Option MigError) (et lid d : Nat),
      runMigration B s tables = (s', e) →
      lookup s et lid = some d → lookup s' et lid = some d := by
  intro tables
  induction tables with
  | nil => intro s s' e et lid d hr h; cases hr; exact h
  | cons t rest ih =>
    intro s s' e et lid d hr h
    unfold runMigration at hr
    cases he : runEntity B t.1 s t.2 with
    | mk s1 e1 =>
      cases e1 with
      | none =>
        rw [he] at hr
        exact ih _ _ _ _ _ _ hr
          (lookup_after_runEntity B t.1 s s1 t.2 none et lid d he h)
      | some e' =>
        rw [he] at hr; cases hr
        exact lookup_after_runEntity B t.1 s s' t.2 (some e') et lid d he h

/-- The function `processChildRow` preserves every existing mapping entry. -/
theorem lookup_after_child (pol : Policy) (etC etP : Nat) (s : MigState)
    (r : LegacyRow) (et lid d : Nat) (h : lookup s et lid = some d) :
    lookup (processChildRow pol etC etP s r).1 et lid = some d := by
  cases hp : r.parentRef with
  | none => simp only [processChildRow, hp]; exact h
  | some p =>
    cases hl : lookup s etP p with
    | none => cases pol <;> simp only [processChildRow, hp, hl] <;> exact h
    | some pid =>
      cases hw : writeRow (resolve s etC r.pk).2.dest
          ⟨(resolve s etC r.pk).1, r.payload + pid⟩ with
      | error e => simp only [processChildRow, hp, hl, hw]; exact h
      | ok q =>
        obtain ⟨dest', wrote⟩ := q
        simp only [processChildRow, hp, hl, hw]
        exact lookup_after_resolve s et lid etC r.pk d h

/-- Every single engine operation preserves every existing mapping entry. -/
theorem lookup_after_step (s s' : MigState) (hs : Step s s') (et lid d : Nat)
    (h : lookup s et lid = some d) : lookup s' et lid = some d := by
  cases hs with
  | resolveStep et' lid' s => exact lookup_after_resolve s et lid et' lid' d h
  | commitBatchStep et' s s' batch hc =>
    exact lookup_after_commitBatch et' s s' batch et lid d hc h
  | runEntityStep B et' s s' rows e he =>
    exact lookup_after_runEntity B et' s s' rows e et lid d he h
  | runMigrationStep B s s' tables e hm =>
    exact lookup_after_runMigration B tables s s' e et lid d hm h
  | childStep pol etC etP s r => exact lookup_after_child pol etC etP s r et lid d h

/-- Mapping entries survive any sequence of engine operations. -/
theorem lookup_after_reachable (s s' : MigState) (hr : Reachable s s')
    (et lid d : Nat) (h : lookup s et lid = some d) :
    lookup s' et lid = some d := by
  induction hr with
  | refl => exact h
  | tail _ hstep ih => exact lookup_after_step _ _ hstep et lid d ih

/-- C2: identifier stability of the Identity Mapper — once
`resolve(entityType, legacyId)` has returned an identifier, calling it
again at any later point of the run, or of a resumed run (any state
reachable through engine operations from the persisted state of the first
call), returns the identical DestinationIdentifier, because the mapping is
persisted with the first call. -/
theorem resolve_stable (s s2 : MigState) (et lid : Nat)
    (h : Reachable (resolve s et lid).2 s2) :
    (resolve s2 et lid).1 = (resolve s et lid).1 := by
  have h1 := lookup_resolve_self s et lid
  have h2 := lookup_after_reachable _ _ h et lid _ h1
  rw [resolve_eq_of_some s2 et lid _ h2]

/-- C2 witness: a concrete first call, an intervening engine operation
(one entity pipeline run), and the second call returning the same id. -/
theorem resolve_stable_witness :
    Reachable (resolve initState 3 7).2
      (runEntity 0 4 (resolve initState 3 7).2 [⟨1, 0, 0, none, 42⟩]).1 ∧
    (resolve
        (runEntity 0 4 (resolve initState 3 7).2 [⟨1, 0, 0, none, 42⟩]).1
        3 7).1 =
      (resolve initState 3 7).1 := by
  have hreach : Reachable (resolve initState 3 7).2
      (runEntity 0 4 (resolve initState 3 7).2 [⟨1, 0, 0, none, 42⟩]).1 :=
    Relation.ReflTransGen.single
      (Step.runEntityStep 0 4 _ _ [⟨1, 0, 0, none, 42⟩]
        (runEntity 0 4 (resolve initState 3 7).2 [⟨1, 0, 0, none, 42⟩]).2 rfl)
  exact ⟨hreach, resolve_stable initState _ 3 7 hreach⟩

/-! ## C5: Batch Writer conflict handling -/

/-- C5: on a uniqueness conflict (a destination row with the same
identifier exists), the Batch Writer treats the row as already applied
(no write, no error) exactly when the existing content equals the
transformed content; a content mismatch is a `ConsistencyViolationError`;
without a conflict the row is inserted. A row error fails that row's
whole batch, and a failed batch is surfaced by the pipeline (never
silently skipped): the loop stops and returns the error. -/
theorem writer_conflict_handling :
    (∀ (dest : List DestRow) (r ex : DestRow),
      dest.find? (fun d => d.id == r.id) = some ex →
      (ex.content = r.content → writeRow dest r = .ok (dest, false)) ∧
      (ex.content ≠ r.content → writeRow dest r = .error .consistencyViolation)) ∧
    (∀ (dest : List DestRow) (r : DestRow),
      dest.find? (fun d => d.id == r.id) = none →
      writeRow dest r = .ok (dest ++ [r], true)) ∧
    (∀ (et : Nat) (s : MigState) (r : LegacyRow) (rs : List LegacyRow)
      (e : MigError),
      writeRow (resolve s et r.pk).2.dest
        ⟨(resolve s et r.pk).1, r.payload⟩ = .error e →
      commitBatch et s (r :: rs) = .error e) ∧
    (∀ (B et : Nat) (s : MigState) (l : List LegacyRow) (e : MigError),
      l ≠ [] → commitBatch et s (l.take (B + 1)) = .error e →
      runBatches B et s l = (s, some e)) := by
  refine ⟨?_, ?_, ?_, ?_⟩
  · intro dest r ex hf
    constructor
    · intro heq; simp [writeRow, hf, heq]
    · intro hne; simp [writeRow, hf, hne]
  · intro dest r hf
    simp [writeRow, hf]
  · intro et s r rs e hw
    have hcr : commitRows et s (r :: rs) = .error e := by
      unfold commitRows; rw [hw]
    unfold commitBatch; rw [hcr]
  · intro B et s l e hne hc
    match l with
    | [] => exact absurd rfl hne
    | x :: xs =>
      unfold runBatches; rw [hc]

/-- C5 witness: a concrete equal-content conflict resolving to "already
applied", a concrete mismatch raising the violation, and the error
surfacing through the batch loop on a concrete state. -/
theorem writer_conflict_handling_witness :
    writeRow [⟨0, 5⟩] ⟨0, 5⟩ = .ok ([⟨0, 5⟩], false) ∧
    writeRow [⟨0, 5⟩] ⟨0, 6⟩ = .error .consistencyViolation ∧
    writeRow [⟨0, 5⟩] ⟨1, 7⟩ = .ok ([⟨0, 5⟩, ⟨1, 7⟩], true) ∧
    runBatches 0 0 { initState with dest := [⟨0, 5⟩] } [⟨9, 0, 0, none, 6⟩] =
      ({ initState with dest := [⟨0, 5⟩] }, some .consistencyViolation) := by
  refine ⟨(writer_conflict_handling.1 [⟨0, 5⟩] ⟨0, 5⟩ ⟨0, 5⟩ rfl).1 rfl,
          (writer_conflict_handling.1 [⟨0, 5⟩] ⟨0, 6⟩ ⟨0, 5⟩ rfl).2 (by decide),
          writer_conflict_handling.2.1 [⟨0, 5⟩] ⟨1, 7⟩ rfl, ?_⟩
  refine writer_conflict_handling.2.2.2 0 0 { initState with dest := [⟨0, 5⟩] }
    [⟨9, 0, 0, none, 6⟩] .consistencyViolation (by simp) ?_
  exact writer_conflict_handling.2.2.1 0 { initState with dest := [⟨0, 5⟩] }
    ⟨9, 0, 0, none, 6⟩ [] .consistencyViolation rfl

/-! ## C6: dangling parent references -/

/-- C6: the Identity Mapper's `lookup` is a non-allocating read, and when
the required parent mapping is absent the child pipeline routes the row
to the error path: under the default policy the row is skipped and
recorded in the MigrationReport (skip counter and error log), under
strict mode the run aborts with a `DanglingReferenceError` naming the
row; in both cases the parent mapping is never silently allocated — the
mapping is left exactly as it was. -/
theorem dangling_reference_policy (pol : Policy) (etC etP : Nat)
    (s : MigState) (r : LegacyRow) (p : Nat) (hp : r.parentRef = some p)
    (habs : lookup s etP p = none) :
    processChildRow .skipAndReport etC etP s r =
      ({ s with
         rowsSkipped := s.rowsSkipped + 1,
         errorsLog := (r.pk, .danglingReference r.pk) :: s.errorsLog }, none) ∧
    processChildRow .abortOnFirstError etC etP s r =
      (s, some (.danglingReference r.pk)) ∧
    (processChildRow pol etC etP s r).1.mapping = s.mapping := by
  refine ⟨?_, ?_, ?_⟩
  · simp only [processChildRow, hp, habs]
  · simp only [processChildRow, hp, habs]
  · cases pol with
    | skipAndReport => simp only [processChildRow, hp, habs]
    | abortOnFirstError => simp only [processChildRow, hp, habs]

/-- C6 witness: a concrete session row referencing an unmigrated parent. -/
theorem dangling_reference_policy_witness :
    processChildRow .skipAndReport 2 1 initState ⟨4, 0, 0, some 7, 5⟩ =
      ({ initState with
         rowsSkipped := 1,
         errorsLog := [(4, .danglingReference 4)] }, none) ∧
    processChildRow .abortOnFirstError 2 1 initState ⟨4, 0, 0, some 7, 5⟩ =
      (initState, some (.danglingReference 4)) ∧
    (processChildRow .abortOnFirstError 2 1 initState
        ⟨4, 0, 0, some 7, 5⟩).1.mapping = initState.mapping :=
  dangling_reference_policy .abortOnFirstError 2 1 initState
    ⟨4, 0, 0, some 7, 5⟩ 7 rfl rfl

/-! ## C7: duplicate collapse by natural key -/

/-- No row is preferred over itself. -/
theorem prefer_irrefl (a : LegacyRow) : prefer a a = false := by
  simp [prefer]

/-- The survivor preference is transitive. -/
theorem prefer_trans (a b c : LegacyRow) (h1 : prefer a b = true)
    (h2 : prefer b c = true) : prefer a c = true := by
  simp only [prefer, Bool.or_eq_true, Bool.and_eq_true, decide_eq_true_eq,
    beq_iff_eq] at h1 h2 ⊢
  omega

/-- Every row of `dedupInsert r acc` is `r` or comes from `acc`. -/
theorem dedupInsert_mem (r x : LegacyRow) (acc : List LegacyRow)
    (h : x ∈ dedupInsert r acc) : x = r ∨ x ∈ acc := by
  induction acc with
  | nil => simpa [dedupInsert] using h
  | cons y ys ih =>
    unfold dedupInsert at h
    by_cases hk : (y.naturalKey == r.naturalKey) = true
    · rw [if_pos hk] at h
      by_cases hpref : prefer r y = true
      · rw [if_pos hpref] at h
        rcases List.mem_cons.mp h with h1 | h1
        · exact Or.inl h1
        · exact Or.inr (List.mem_cons_of_mem _ h1)
      · rw [if_neg hpref] at h
        rcases List.mem_cons.mp h with h1 | h1
        · exact Or.inr (h1 ▸ List.mem_cons_self _ _)
        · exact Or.inr (List.mem_cons_of_mem _ h1)
    · rw [if_neg hk] at h
      rcases List.mem_cons.mp h with h1 | h1
      · exact Or.inr (h1 ▸ List.mem_cons_self _ _)
      · rcases ih h1 with h2 | h2
        · exact Or.inl h2
        · exact Or.inr (List.mem_cons_of_mem _ h2)

/-- After inserting `r`, some surviving row of `r`'s natural key is at
least as preferred as `r`. -/
theorem dedupInsert_covers_self (r : LegacyRow) (acc : List LegacyRow) :
    ∃ x ∈ dedupInsert r acc, x.naturalKey = r.naturalKey ∧ prefer r x = false := by
  induction acc with
  | nil => exact ⟨r, by simp [dedupInsert], rfl, prefer_irrefl r⟩
  | cons y ys ih =>
    unfold dedupInsert
    by_cases hk : (y.naturalKey == r.naturalKey) = true
    · rw [if_pos hk]
      by_cases hpref : prefer r y = true
      · rw [if_pos hpref]
        exact ⟨r, List.mem_cons_self _ _, rfl, prefer_irrefl r⟩
      · rw [if_neg hpref]
        exact ⟨y, List.mem_cons_self _ _, beq_iff_eq.mp hk,
          Bool.eq_false_iff.mpr hpref⟩
    · rw [if_neg hk]
      obtain ⟨x, hx, hkey, hdom⟩ := ih
      exact ⟨x, List.mem_cons_of_mem _ hx, hkey, hdom⟩

/-- Inserting a new row preserves the property that a given row `a` is
dominated by some surviving row of its natural key. -/
theorem dedupInsert_preserves_cover (a r : LegacyRow) (acc : List LegacyRow)
    (h : ∃ x ∈ acc, x.naturalKey = a.naturalKey ∧ prefer a x = false) :
    ∃ x ∈ dedupInsert r acc, x.naturalKey = a.naturalKey ∧ prefer a x = false := by
  induction acc with
  | nil => obtain ⟨x, hx, _⟩ := h; cases hx
  | cons y ys ih =>
    obtain ⟨x, hx, hkey, hdom⟩ := h
    unfold dedupInsert
    by_cases hk : (y.naturalKey == r.naturalKey) = true
    · rw [if_pos hk]
      rcases List.mem_cons.mp hx with h1 | h1
      · subst h1
        by_cases hpref : prefer r x = true
        · rw [if_pos hpref]
          refine ⟨r, List.mem_cons_self _ _, ?_, ?_⟩
          · rw [← beq_iff_eq.mp hk, hkey]
          · by_contra hc
            rw [Bool.not_eq_false] at hc
            exact absurd (prefer_trans a r x hc hpref)
              (Bool.eq_false_iff.mp hdom)
        · rw [if_neg hpref]
          exact ⟨x, List.mem_cons_self _ _, hkey, hdom⟩
      · refine ⟨x, ?_, hkey, hdom⟩
        exact List.mem_cons_of_mem _ h1
    · rw [if_neg hk]
      rcases List.mem_cons.mp hx with h1 | h1
      · subst h1
        exact ⟨x, List.mem_cons_self _ _, hkey, hdom⟩
      · obtain ⟨x', hx', hkey', hdom'⟩ := ih ⟨x, h1, hkey, hdom⟩
        exact ⟨x', List.mem_cons_of_mem _ hx', hkey', hdom'⟩

/-- Every deduplicated row comes from the input. -/
theorem dedup_mem (rows : List LegacyRow) (x : LegacyRow)
    (h : x ∈ dedup rows) : x ∈ rows := by
  induction rows with
  | nil => simp [dedup] at h
  | cons r rs ih =>
    unfold dedup at h
    rcases dedupInsert_mem r x (dedup rs) h with h1 | h1
    · exact h1 ▸ List.mem_cons_self _ _
    · exact List.mem_cons_of_mem _ (ih h1)

/-- Every input row is dominated by a surviving row of its natural key. -/
theorem dedup_covers (rows : List LegacyRow) (a : LegacyRow) (ha : a ∈ rows) :
    ∃ x ∈ dedup rows, x.naturalKey = a.naturalKey ∧ prefer a x = false := by
  induction rows with
  | nil => cases ha
  | cons r rs ih =>
    unfold dedup
    rcases List.mem_cons.mp ha with h1 | h1
    · subst h1; exact dedupInsert_covers_self a (dedup rs)
    · exact dedupInsert_preserves_cover a r (dedup rs) (ih h1)

/-- Pairwise-distinct natural keys. -/
def KeysDistinct (l : List LegacyRow) : Prop :=
  List.Pairwise (fun a b => a.naturalKey ≠ b.naturalKey) l

/-- Inserting preserves key distinctness. -/
theorem dedupInsert_keysDistinct (r : LegacyRow) (acc : List LegacyRow)
    (h : KeysDistinct acc) : KeysDistinct (dedupInsert r acc) := by
  induction acc with
  | nil => exact List.pairwise_singleton _ _
  | cons y ys ih =>
    obtain ⟨hy, hys⟩ := List.pairwise_cons.mp h
    unfold dedupInsert
    by_cases hk : (y.naturalKey == r.naturalKey) = true
    · rw [if_pos hk]
      have hbk : (if prefer r y = true then r else y).naturalKey = y.naturalKey := by
        by_cases hpref : prefer r y = true
        · rw [if_pos hpref]
          exact (beq_iff_eq.mp hk).symm
        · rw [if_neg hpref]
      refine List.pairwise_cons.mpr ⟨?_, hys⟩
      intro b hb
      rw [hbk]
      exact hy b hb
    · rw [if_neg hk]
      refine List.pairwise_cons.mpr ⟨?_, ih hys⟩
      intro b hb
      rcases dedupInsert_mem r b ys hb with h1 | h1
      · subst h1
        exact fun hc => hk (beq_iff_eq.mpr hc)
      · exact hy b h1

/-- The deduplicated list has pairwise-distinct natural keys. -/
theorem dedup_keysDistinct (rows : List LegacyRow) :
    KeysDistinct (dedup rows) := by
  induction rows with
  | nil => exact List.Pairwise.nil
  | cons r rs ih => exact dedupInsert_keysDistinct r (dedup rs) ih

/-- In a key-distinct list, a row is determined by its natural key. -/
theorem keysDistinct_unique (l : List LegacyRow) (h : KeysDistinct l)
    (x y : LegacyRow) (hx : x ∈ l) (hy : y ∈ l)
    (hk : x.naturalKey = y.naturalKey) : x = y := by
  induction l with
  | nil => cases hx
  | cons z zs ih =>
    obtain ⟨hz, hzs⟩ := List.pairwise_cons.mp h
    rcases List.mem_cons.mp hx with h1 | h1 <;>
      rcases List.mem_cons.mp hy with h2 | h2
    · rw [h1, h2]
    · subst h1; exact absurd hk (hz y h2)
    · subst h2; exact absurd hk.symm (hz x h1)
    · exact ih hzs h1 h2

/-- Filtering a key-distinct list by the key of one of its rows yields
exactly that row. -/
theorem filter_key_singleton (l : List LegacyRow) (h : KeysDistinct l)
    (x : LegacyRow) (hx : x ∈ l) :
    l.filter (fun y => y.naturalKey == x.naturalKey) = [x] := by
  induction l with
  | nil => cases hx
  | cons z zs ih =>
    obtain ⟨hz, hzs⟩ := List.pairwise_cons.mp h
    rcases List.mem_cons.mp hx with h1 | h1
    · subst h1
      rw [List.filter_cons_of_pos (by simp)]
      have hnil : zs.filter (fun y => y.naturalKey == x.naturalKey) = [] := by
        rw [List.filter_eq_nil_iff]
        intro b hb
        simp only [beq_iff_eq]
        intro hc
        exact hz b hb hc.symm
      rw [hnil]
    · have hne : (z.naturalKey == x.naturalKey) = false :=
        Bool.eq_false_iff.mpr (by simpa using hz x h1)
      rw [List.filter_cons_of_neg (by simp [hne]), ih hzs h1]

/-- C7: the transformation collapses every set of duplicate legacy rows
sharing one natural key to exactly one destination-bound row — the one no
other row of that key is preferred over (latest update timestamp, ties
broken by legacy primary key ascending); the selection is a function of
the input rows, so any two runs over the same source agree on it. -/
theorem dedup_collapses (rows : List LegacyRow) (k : Nat)
    (hk : ∃ r ∈ rows, r.naturalKey = k) :
    ∃ s, (dedup rows).filter (fun y => y.naturalKey == k) = [s] ∧
      s ∈ rows ∧ s.naturalKey = k ∧
      ∀ r ∈ rows, r.naturalKey = k → prefer r s = false := by
  obtain ⟨r0, hr0, hr0k⟩ := hk
  obtain ⟨s, hs, hskey, _⟩ := dedup_covers rows r0 hr0
  have hskk : s.naturalKey = k := by rw [hskey, hr0k]
  refine ⟨s, ?_, dedup_mem rows s hs, hskk, ?_⟩
  · rw [← hskk]
    exact filter_key_singleton (dedup rows) (dedup_keysDistinct rows) s hs
  · intro r hr hrk
    obtain ⟨s', hs', hskey', hdom'⟩ := dedup_covers rows r hr
    have : s' = s :=
      keysDistinct_unique (dedup rows) (dedup_keysDistinct rows) s' s hs' hs
        (by rw [hskey', hrk, hskk])
    rw [← this]
    exact hdom'

/-- C7 witness: three duplicate rows of one natural key — two sharing the
latest timestamp, one older — collapse to the latest-timestamp row with
the smallest primary key. -/
theorem dedup_collapses_witness :
    ∃ s, (dedup [⟨2, 5, 10, none, 0⟩, ⟨1, 5, 10, none, 0⟩,
          ⟨3, 5, 9, none, 0⟩]).filter (fun y => y.naturalKey == 5) = [s] ∧
      s ∈ [⟨2, 5, 10, none, 0⟩, ⟨1, 5, 10, none, 0⟩, ⟨3, 5, 9, none, 0⟩] ∧
      s.naturalKey = 5 ∧
      ∀ r ∈ ([⟨2, 5, 10, none, 0⟩, ⟨1, 5, 10, none, 0⟩,
          ⟨3, 5, 9, none, 0⟩] : List LegacyRow),
        r.naturalKey = 5 → prefer r s = false :=
  dedup_collapses _ 5 ⟨⟨2, 5, 10, none, 0⟩, by simp, rfl⟩

/-! ## Checkpoint Store lemmas -/

/-- The function `resolve` never touches the checkpoints. -/
theorem resolve_checkpoints (s : MigState) (et lid : Nat) :
    (resolve s et lid).2.checkpoints = s.checkpoints := by
  cases h : lookup s et lid with
  | some d => rw [resolve_eq_of_some s et lid d h]
  | none => rw [resolve_eq_of_none s et lid h]

/-- The function `resolve` never touches the destination rows. -/
theorem resolve_dest (s : MigState) (et lid : Nat) :
    (resolve s et lid).2.dest = s.dest := by
  cases h : lookup s et lid with
  | some d => rw [resolve_eq_of_some s et lid d h]
  | none => rw [resolve_eq_of_none s et lid h]

/-- The function `commitRows` never touches the checkpoints. -/
theorem commitRows_checkpoints (et : Nat) (l : List LegacyRow) :
    ∀ (s s' : MigState), commitRows et s l = .ok s' →
      s'.checkpoints = s.checkpoints := by
  induction l with
  | nil => intro s s' hc; cases hc; rfl
  | cons r rs ih =>
    intro s s' hc
    unfold commitRows at hc
    cases hw : writeRow (resolve s et r.pk).2.dest
        ⟨(resolve s et r.pk).1, r.payload⟩ with
    | error e => rw [hw] at hc; cases hc
    | ok q =>
      obtain ⟨dest', wrote⟩ := q
      rw [hw] at hc
      rw [ih _ _ hc]
      exact resolve_checkpoints s et r.pk

/-- After a successful `commitBatch` of a nonempty batch, the checkpoint
of this entity type is the batch's last legacy ordering key. -/
theorem cp_commitBatch_self (et : Nat) (s s' : MigState)
    (batch : List LegacyRow) (rl : LegacyRow)
    (hl : batch.getLast? = some rl) (hc : commitBatch et s batch = .ok s') :
    cp s' et = some rl.pk := by
  unfold commitBatch at hc
  cases hr : commitRows et s batch with
  | error e => rw [hr] at hc; cases hc
  | ok s1 =>
    rw [hr, hl] at hc
    cases hc
    simp [cp, List.find?_cons_of_pos]

/-- A successful `commitBatch` for one entity type leaves every other
entity type's checkpoint unchanged. -/
theorem cp_commitBatch_other (et et2 : Nat) (het : et2 ≠ et) (s s' : MigState)
    (batch : List LegacyRow) (hc : commitBatch et s batch = .ok s') :
    cp s' et2 = cp s et2 := by
  unfold commitBatch at hc
  cases hr : commitRows et s batch with
  | error e => rw [hr] at hc; cases hc
  | ok s1 =>
    have h1 := commitRows_checkpoints et batch s s1 hr
    rw [hr] at hc
    cases hl : batch.getLast? with
    | some r =>
      rw [hl] at hc; cases hc
      unfold cp
      rw [h1]
      rw [List.find?_cons_of_neg]
      simpa using fun hh => het hh.symm
    | none => rw [hl] at hc; cases hc; unfold cp; rw [h1]

/-- The function `runBatches` for one entity type leaves every other entity type's
checkpoint unchanged. -/
theorem cp_runBatches_other (B et et2 : Nat) (het : et2 ≠ et) :
    ∀ (n : Nat) (l : List LegacyRow) (s s' : MigState) (e : Option MigError),
      l.length ≤ n → runBatches B et s l = (s', e) → cp s' et2 = cp s et2 := by
  intro n
  induction n with
  | zero =>
    intro l s s' e hn hr
    have hl : l = [] := List.eq_nil_of_length_eq_zero (Nat.le_zero.mp hn)
    subst hl
    unfold runBatches at hr
    cases hr; rfl
  | succ n ih =>
    intro l s s' e hn hr
    match l with
    | [] => unfold runBatches at hr; cases hr; rfl
    | r :: rest =>
      unfold runBatches at hr
      cases hc : commitBatch et s ((r :: rest).take (B + 1)) with
      | error e' => rw [hc] at hr; cases hr; rfl
      | ok s1 =>
        rw [hc] at hr
        have hlen : ((r :: rest).drop (B + 1)).length ≤ n := by
          simp only [List.length_drop, List.length_cons] at hn ⊢
          omega
        rw [ih _ _ _ _ hlen hr]
        exact cp_commitBatch_other et et2 het s s1 _ hc

/-- The function `runEntity` for one entity type leaves every other entity type's
checkpoint unchanged. -/
theorem cp_runEntity_other (B et et2 : Nat) (het : et2 ≠ et) (s s' : MigState)
    (rows : List LegacyRow) (e : Option MigError)
    (hr : runEntity B et s rows = (s', e)) : cp s' et2 = cp s et2 :=
  cp_runBatches_other B et et2 het _ _ s s' e (Nat.le_refl _) hr

/-- The function `runSteps` for one entity type leaves every other entity type's
checkpoint unchanged. -/
theorem cp_runSteps_other (B et et2 : Nat) (het : et2 ≠ et) :
    ∀ (k : Nat) (l : List LegacyRow) (s s' : MigState) (e : Option MigError),
      runSteps B et s l k = (s', e) → cp s' et2 = cp s et2 := by
  intro k
  induction k with
  | zero =>
    intro l s s' e hr
    match l with
    | [] => unfold runSteps at hr; cases hr; rfl
    | r :: rest => unfold runSteps at hr; cases hr; rfl
  | succ k ih =>
    intro l s s' e hr
    match l with
    | [] => unfold runSteps at hr; cases hr; rfl
    | r :: rest =>
      unfold runSteps at hr
      cases hc : commitBatch et s ((r :: rest).take (B + 1)) with
      | error e' => rw [hc] at hr; cases hr; rfl
      | ok s1 =>
        rw [hc] at hr
        rw [ih _ _ _ _ hr]
        exact cp_commitBatch_other et et2 het s s1 _ hc

/-- The function `runMigration` over tables not containing an entity type leaves that
entity type's checkpoint unchanged. -/
theorem cp_runMigration_other (B et2 : Nat) :
    ∀ (tables : List (Nat × List LegacyRow)) (s s' : MigState)
      (e : Option MigError), (∀ t ∈ tables, t.1 ≠ et2) →
      runMigration B s tables = (s', e) → cp s' et2 = cp s et2 := by
  intro tables
  induction tables with
  | nil => intro s s' e _ hr; cases hr; rfl
  | cons t rest ih =>
    intro s s' e hne hr
    unfold runMigration at hr
    cases he : runEntity B t.1 s t.2 with
    | mk s1 e1 =>
      have het2 : et2 ≠ t.1 := fun hh => hne t (List.mem_cons_self _ _) hh.symm
      cases e1 with
      | none =>
        rw [he] at hr
        rw [ih _ _ _ (fun u hu => hne u (List.mem_cons_of_mem _ hu)) hr]
        exact cp_runEntity_other B t.1 et2 het2 s s1 t.2 none he
      | some e' =>
        rw [he] at hr; cases hr
        exact cp_runEntity_other B t.1 et2 het2 s s' t.2 (some e') he

/-- The function `runMigrationSteps` over tables not containing an entity type leaves
that entity type's checkpoint unchanged. -/
theorem cp_runMigrationSteps_other (B et2 : Nat) :
    ∀ (tables : List (Nat × List LegacyRow)) (i k : Nat) (s s' : MigState)
      (e : Option MigError), (∀ t ∈ tables, t.1 ≠ et2) →
      runMigrationSteps B s tables i k = (s', e) → cp s' et2 = cp s et2 := by
  intro tables
  induction tables with
  | nil => intro i k s s' e _ hr; cases hr; rfl
  | cons t rest ih =>
    intro i k s s' e hne hr
    have het2 : et2 ≠ t.1 := fun hh => hne t (List.mem_cons_self _ _) hh.symm
    match i with
    | 0 =>
      unfold runMigrationSteps at hr
      exact cp_runSteps_other B t.1 et2 het2 k _ s s' e hr
    | i + 1 =>
      unfold runMigrationSteps at hr
      cases he : runEntity B t.1 s t.2 with
      | mk s1 e1 =>
        cases e1 with
        | none =>
          rw [he] at hr
          rw [ih _ _ _ _ _ (fun u hu => hne u (List.mem_cons_of_mem _ hu)) hr]
          exact cp_runEntity_other B t.1 et2 het2 s s1 t.2 none he
        | some e' =>
          rw [he] at hr; cases hr
          exact cp_runEntity_other B t.1 et2 het2 s s' t.2 (some e') he

/-! ## Sorted extraction and pending-range lemmas -/

/-- In a pk-sorted list, the last element has the maximal ordering key. -/
theorem sorted_last_max (t : List LegacyRow) : SortedByPk t →
    ∀ (r : LegacyRow), t.getLast? = some r → ∀ x ∈ t, x.pk ≤ r.pk := by
  induction t with
  | nil => intro _ r hr; cases hr
  | cons a t ih =>
    intro hs r hr x hx
    cases t with
    | nil =>
      have ha : a = r := by simpa using hr
      have hxa : x = a := by simpa using hx
      rw [hxa, ha]
    | cons b t' =>
      have hr' : (b :: t').getLast? = some r := by
        rw [← List.getLast?_cons_cons]; exact hr
      obtain ⟨hab, hs'⟩ := List.pairwise_cons.mp hs
      rcases List.mem_cons.mp hx with h1 | h1
      · subst h1
        exact Nat.le_of_lt (hab r (List.mem_of_getLast?_eq_some hr'))
      · exact ih hs' r hr' x h1

/-- Filtering a sorted list for keys past the last key of its length-`n`
prefix yields exactly the corresponding suffix. -/
theorem filter_gt_last_take (l : List LegacyRow) (hs : SortedByPk l) (n : Nat)
    (r : LegacyRow) (hr : (l.take n).getLast? = some r) :
    l.filter (fun x => decide (r.pk < x.pk)) = l.drop n := by
  have hsplit := List.take_append_drop n l
  conv_lhs => rw [← hsplit]
  rw [List.filter_append]
  have hpw : List.Pairwise (fun a b : LegacyRow => a.pk < b.pk)
      (l.take n ++ l.drop n) := by rw [hsplit]; exact hs
  have h1 : (l.take n).filter (fun x => decide (r.pk < x.pk)) = [] := by
    rw [List.filter_eq_nil_iff]
    intro x hx
    simp only [decide_eq_true_eq]
    have := sorted_last_max (l.take n)
      (List.Pairwise.sublist (List.take_sublist n l) hs) r hr x hx
    omega
  have h2 : (l.drop n).filter (fun x => decide (r.pk < x.pk)) = l.drop n := by
    rw [List.filter_eq_self]
    intro x hx
    simp only [decide_eq_true_eq]
    exact (List.pairwise_append.mp hpw).2.2 r
      (List.mem_of_getLast?_eq_some hr) x hx
  rw [h1, h2, List.nil_append]

/-- The pending rows of a sorted source are sorted. -/
theorem pending_sorted (s : MigState) (et : Nat) (rows : List LegacyRow)
    (hs : SortedByPk rows) : SortedByPk (pending s et rows) :=
  List.Pairwise.sublist (List.filter_sublist rows) hs

/-- A key strictly past a checkpoint stays past it for larger keys. -/
theorem cpLt_trans_pk (c : Option Nat) (m k : Nat) (h1 : cpLt c m = true)
    (h2 : m < k) : cpLt c k = true := by
  cases c with
  | none => rfl
  | some v => simp only [cpLt, decide_eq_true_eq] at h1 ⊢; omega

/-- One committed batch moves the pending range forward by exactly the
batch: the new checkpoint covers the batch and nothing else. -/
theorem pending_after_commitBatch (B et : Nat) (s s' : MigState)
    (rows l : List LegacyRow) (hs : SortedByPk rows)
    (hp : pending s et rows = l) (hl : l ≠ [])
    (hc : commitBatch et s (l.take (B + 1)) = .ok s') :
    pending s' et rows = l.drop (B + 1) := by
  have hbne : l.take (B + 1) ≠ [] := by
    cases l with
    | nil => exact absurd rfl hl
    | cons x xs => simp [List.take]
  obtain ⟨rl, hrl⟩ := Option.isSome_iff_exists.mp (List.getLast?_isSome.mpr hbne)
  have hcp : cp s' et = some rl.pk := cp_commitBatch_self et s s' _ rl hrl hc
  have hls : SortedByPk l := hp ▸ pending_sorted s et rows hs
  have hrlmem : rl ∈ l :=
    (List.take_sublist (B + 1) l).mem (List.mem_of_getLast?_eq_some hrl)
  have hrlp : cpLt (cp s et) rl.pk = true := by
    have hm : rl ∈ pending s et rows := hp ▸ hrlmem
    exact (List.mem_filter.mp hm).2
  unfold pending
  rw [hcp]
  have hswap : rows.filter (fun x => cpLt (some rl.pk) x.pk) =
      l.filter (fun x => decide (rl.pk < x.pk)) := by
    rw [← hp]
    unfold pending
    rw [List.filter_filter]
    apply List.filter_congr
    intro x hx
    show cpLt (some rl.pk) x.pk = (decide (rl.pk < x.pk) && cpLt (cp s et) x.pk)
    by_cases hq : rl.pk < x.pk
    · have hold := cpLt_trans_pk (cp s et) rl.pk x.pk hrlp hq
      rw [hold]
      simp [cpLt, hq]
    · simp [cpLt, hq]
  rw [hswap, filter_gt_last_take l hls (B + 1) rl hrl]

/-- After a successful complete `runBatches` pass over the pending rows,
nothing is pending. -/
theorem pending_empty_after_runBatches (B et : Nat) (rows : List LegacyRow)
    (hs : SortedByPk rows) :
    ∀ (n : Nat) (l : List LegacyRow) (s s' : MigState), l.length ≤ n →
      pending s et rows = l → runBatches B et s l = (s', none) →
      pending s' et rows = [] := by
  intro n
  induction n with
  | zero =>
    intro l s s' hn hp hr
    have hnil : l = [] := List.eq_nil_of_length_eq_zero (Nat.le_zero.mp hn)
    subst hnil
    unfold runBatches at hr
    cases hr
    exact hp
  | succ n ih =>
    intro l s s' hn hp hr
    match l with
    | [] => unfold runBatches at hr; cases hr; exact hp
    | r :: rest =>
      unfold runBatches at hr
      cases hc : commitBatch et s ((r :: rest).take (B + 1)) with
      | error e => rw [hc] at hr; cases hr
      | ok s1 =>
        rw [hc] at hr
        have hp1 := pending_after_commitBatch B et s s1 rows (r :: rest) hs hp
          (by simp) hc
        have hlen : ((r :: rest).drop (B + 1)).length ≤ n := by
          simp only [List.length_drop, List.length_cons] at hn ⊢
          omega
        exact ih _ s1 s' hlen hp1 hr

/-- Resuming after an interruption point inside one entity pipeline:
running the pipeline from the interrupted state over what it now sees as
pending continues exactly the original computation. -/
theorem runSteps_resume (B et : Nat) (rows : List LegacyRow)
    (hs : SortedByPk rows) :
    ∀ (k : Nat) (l : List LegacyRow) (s sMid : MigState),
      pending s et rows = l → runSteps B et s l k = (sMid, none) →
      runBatches B et sMid (pending sMid et rows) = runBatches B et s l := by
  intro k
  induction k with
  | zero =>
    intro l s sMid hp hr
    match l with
    | [] => unfold runSteps at hr; cases hr; rw [hp]
    | r :: rest => unfold runSteps at hr; cases hr; rw [hp]
  | succ k ih =>
    intro l s sMid hp hr
    match l with
    | [] => unfold runSteps at hr; cases hr; rw [hp]
    | r :: rest =>
      unfold runSteps at hr
      cases hc : commitBatch et s ((r :: rest).take (B + 1)) with
      | error e => rw [hc] at hr; cases hr
      | ok s1 =>
        rw [hc] at hr
        have hp1 := pending_after_commitBatch B et s s1 rows (r :: rest) hs hp
          (by simp) hc
        rw [ih _ _ _ hp1 hr]
        conv_rhs => rw [runBatches]
        rw [hc]

/-! ## C1: idempotency of the full migration -/

/-- After a successful full migration, nothing is pending for any table. -/
theorem pending_empty_after_migration (B : Nat) :
    ∀ (tables : List (Nat × List LegacyRow)) (s s1 : MigState),
      (∀ t ∈ tables, SortedByPk t.2) →
      List.Pairwise (fun a b => a.1 ≠ b.1) tables →
      runMigration B s tables = (s1, none) →
      ∀ t ∈ tables, pending s1 t.1 t.2 = [] := by
  intro tables
  induction tables with
  | nil => intro s s1 _ _ _ t ht; cases ht
  | cons u rest ih =>
    intro s s1 hsorted hdist hr t ht
    unfold runMigration at hr
    cases he : runEntity B u.1 s u.2 with
    | mk s2 e2 =>
      cases e2 with
      | some e' => rw [he] at hr; cases hr
      | none =>
        rw [he] at hr
        obtain ⟨hd, hdist'⟩ := List.pairwise_cons.mp hdist
        rcases List.mem_cons.mp ht with h1 | h1
        · subst h1
          have hp2 : pending s2 t.1 t.2 = [] :=
            pending_empty_after_runBatches B t.1 t.2
              (hsorted t (List.mem_cons_self _ _)) _ _ s s2 (Nat.le_refl _)
              rfl he
          have hcp : cp s1 t.1 = cp s2 t.1 :=
            cp_runMigration_other B t.1 rest s2 s1 none
              (fun v hv hh => hd v hv hh.symm) hr
          unfold pending at hp2 ⊢
          rw [hcp]
          exact hp2
        · exact ih s2 s1 (fun v hv => hsorted v (List.mem_cons_of_mem _ hv))
            hdist' hr t h1

/-- A migration seeing nothing pending commits nothing and reports no
error. -/
theorem runMigration_noop (B : Nat) :
    ∀ (tables : List (Nat × List LegacyRow)) (s : MigState),
      (∀ t ∈ tables, pending s t.1 t.2 = []) →
      runMigration B s tables = (s, none) := by
  intro tables
  induction tables with
  | nil => intro s _; rfl
  | cons u rest ih =>
    intro s hp
    have hu : runEntity B u.1 s u.2 = (s, none) := by
      unfold runEntity
      rw [hp u (List.mem_cons_self _ _)]
      simp [runBatches]
    unfold runMigration
    rw [hu]
    exact ih s (fun t ht => hp t (List.mem_cons_of_mem _ ht))

/-- C1: running the full migration twice in succession produces a
destination state identical to running it once — for tables extracted in
sorted order, one per entity type, a second run from the state reached by
a successful first run returns that state unchanged (same destination
rows, mapping, generated identifiers, checkpoints and report counters)
and surfaces no error. -/
theorem migration_idempotent (B : Nat) (tables : List (Nat × List LegacyRow))
    (s0 s1 : MigState) (hsorted : ∀ t ∈ tables, SortedByPk t.2)
    (hdist : List.Pairwise (fun a b => a.1 ≠ b.1) tables)
    (h1 : runMigration B s0 tables = (s1, none)) :
    runMigration B s1 tables = (s1, none) :=
  runMigration_noop B tables s1
    (pending_empty_after_migration B tables s0 s1 hsorted hdist h1)

/-! ## C4: resumability of an interrupted migration -/

/-- C4: interrupting the run at any point after a committed batch (the
first `i` tables complete, then `k` committed batches of the next) and
resuming — re-running the whole migration from the interrupted durable
state — computes exactly what the uninterrupted run computes, on every
source and for every interruption point. -/
theorem migration_resumable (B : Nat) :
    ∀ (tables : List (Nat × List LegacyRow)) (i k : Nat) (s0 sMid : MigState),
      (∀ t ∈ tables, SortedByPk t.2) →
      List.Pairwise (fun a b => a.1 ≠ b.1) tables →
      runMigrationSteps B s0 tables i k = (sMid, none) →
      runMigration B sMid tables = runMigration B s0 tables := by
  intro tables
  induction tables with
  | nil =>
    intro i k s0 sMid _ _ hmid
    unfold runMigrationSteps at hmid
    cases hmid
    rfl
  | cons u rest ih =>
    intro i k s0 sMid hsorted hdist hmid
    match i with
    | 0 =>
      unfold runMigrationSteps at hmid
      have hres := runSteps_resume B u.1 u.2
        (hsorted u (List.mem_cons_self _ _)) k _ s0 sMid rfl hmid
      unfold runMigration
      rw [show runEntity B u.1 sMid u.2 = runEntity B u.1 s0 u.2 from hres]
    | i + 1 =>
      unfold runMigrationSteps at hmid
      cases he : runEntity B u.1 s0 u.2 with
      | mk s2 e2 =>
        cases e2 with
        | some e' => rw [he] at hmid; cases hmid
        | none =>
          rw [he] at hmid
          obtain ⟨hd, hdist'⟩ := List.pairwise_cons.mp hdist
          have hIH := ih i k s2 sMid
            (fun v hv => hsorted v (List.mem_cons_of_mem _ hv)) hdist' hmid
          have hp2 : pending s2 u.1 u.2 = [] :=
            pending_empty_after_runBatches B u.1 u.2
              (hsorted u (List.mem_cons_self _ _)) _ _ s0 s2 (Nat.le_refl _)
              rfl he
          have hcp : cp sMid u.1 = cp s2 u.1 :=
            cp_runMigrationSteps_other B u.1 rest i k s2 sMid none
              (fun v hv hh => hd v hv hh.symm) hmid
          have hpMid : pending sMid u.1 u.2 = [] := by
            unfold pending at hp2 ⊢
            rw [hcp]
            exact hp2
          have huMid : runEntity B u.1 sMid u.2 = (sMid, none) := by
            unfold runEntity
            rw [hpMid]
            simp [runBatches]
          unfold runMigration
          rw [he, huMid]
          exact hIH

/-- C1 witness: a concrete two-table source; the first run's final state,
and the second run reproducing it exactly with no error. -/
theorem migration_idempotent_witness :
    runMigration 0 initState
        [(0, [⟨1, 0, 0, none, 10⟩]), (1, [⟨2, 0, 0, none, 20⟩])] =
      ({ mapping := [((1, 2), 1), ((0, 1), 0)], nextId := 2,
         dest := [⟨0, 10⟩, ⟨1, 20⟩], checkpoints := [(1, 2), (0, 1)],
         rowsWritten := 2, rowsSkipped := 0, errorsLog := [] }, none) ∧
    runMigration 0
        { mapping := [((1, 2), 1), ((0, 1), 0)], nextId := 2,
          dest := [⟨0, 10⟩, ⟨1, 20⟩], checkpoints := [(1, 2), (0, 1)],
          rowsWritten := 2, rowsSkipped := 0, errorsLog := [] }
        [(0, [⟨1, 0, 0, none, 10⟩]), (1, [⟨2, 0, 0, none, 20⟩])] =
      ({ mapping := [((1, 2), 1), ((0, 1), 0)], nextId := 2,
         dest := [⟨0, 10⟩, ⟨1, 20⟩], checkpoints := [(1, 2), (0, 1)],
         rowsWritten := 2, rowsSkipped := 0, errorsLog := [] }, none) := by
  have h1 : runMigration 0 initState
      [(0, [⟨1, 0, 0, none, 10⟩]), (1, [⟨2, 0, 0, none, 20⟩])] =
      ({ mapping := [((1, 2), 1), ((0, 1), 0)], nextId := 2,
         dest := [⟨0, 10⟩, ⟨1, 20⟩], checkpoints := [(1, 2), (0, 1)],
         rowsWritten := 2, rowsSkipped := 0, errorsLog := [] }, none) := by
    simp [runMigration, runEntity, pending, cp, cpLt, runBatches, commitBatch,
      commitRows, resolve, lookup, writeRow, initState]
  refine ⟨h1, migration_idempotent 0 _ initState _ ?_ ?_ h1⟩
  · intro t ht
    simp only [List.mem_cons, List.mem_singleton] at ht
    rcases ht with rfl | rfl | h
    · exact List.pairwise_singleton _ _
    · exact List.pairwise_singleton _ _
    · cases h
  · decide

/-- C4 witness: the same two-table source interrupted after the first
table's batch fully committed; resuming from the interrupted state yields
the same final result as the uninterrupted run. -/
theorem migration_resumable_witness :
    runMigrationSteps 0 initState
        [(0, [⟨1, 0, 0, none, 10⟩]), (1, [⟨2, 0, 0, none, 20⟩])] 1 0 =
      ({ mapping := [((0, 1), 0)], nextId := 1, dest := [⟨0, 10⟩],
         checkpoints := [(0, 1)], rowsWritten := 1, rowsSkipped := 0,
         errorsLog := [] }, none) ∧
    runMigration 0
        { mapping := [((0, 1), 0)], nextId := 1, dest := [⟨0, 10⟩],
          checkpoints := [(0, 1)], rowsWritten := 1, rowsSkipped := 0,
          errorsLog := [] }
        [(0, [⟨1, 0, 0, none, 10⟩]), (1, [⟨2, 0, 0, none, 20⟩])] =
      runMigration 0 initState
        [(0, [⟨1, 0, 0, none, 10⟩]), (1, [⟨2, 0, 0, none, 20⟩])] := by
  have hmid : runMigrationSteps 0 initState
      [(0, [⟨1, 0, 0, none, 10⟩]), (1, [⟨2, 0, 0, none, 20⟩])] 1 0 =
      ({ mapping := [((0, 1), 0)], nextId := 1, dest := [⟨0, 10⟩],
         checkpoints := [(0, 1)], rowsWritten := 1, rowsSkipped := 0,
         errorsLog := [] }, none) := by
    simp [runMigrationSteps, runSteps, runEntity, pending, cp, cpLt,
      runBatches, commitBatch, commitRows, resolve, lookup, writeRow,
      initState]
  refine ⟨hmid, migration_resumable 0 _ 1 0 initState _ ?_ ?_ hmid⟩
  · intro t ht
    simp only [List.mem_cons, List.mem_singleton] at ht
    rcases ht with rfl | rfl | h
    · exact List.pairwise_singleton _ _
    · exact List.pairwise_singleton _ _
    · cases h
  · decide

/-! ## C3: checkpoint soundness -/

/-- A checkpoint covers a legacy ordering key when the key is at most the
checkpoint; an absent checkpoint covers nothing. -/
def covered : Option Nat → Nat → Prop
  | none, _ => False
  | some m, k => k ≤ m

/-- A source row is migrated in a state: its identifier mapping is
persisted and its transformed row is in the destination. -/
def Migrated (s : MigState) (et : Nat) (r : LegacyRow) : Prop :=
  ∃ d, lookup s et r.pk = some d ∧ (⟨d, r.payload⟩ : DestRow) ∈ s.dest

/-- The checkpoint of an entity type covers only migrated rows of its
source table. -/
def Covers (s : MigState) (et : Nat) (rows : List LegacyRow) : Prop :=
  ∀ r ∈ rows, covered (cp s et) r.pk → Migrated s et r

/-- A key not covered by a checkpoint is strictly past it. -/
theorem cpLt_of_not_covered (c : Option Nat) (k : Nat) (h : ¬ covered c k) :
    cpLt c k = true := by
  cases c with
  | none => rfl
  | some m =>
    simp only [covered] at h
    simp only [cpLt, decide_eq_true_eq]
    omega

/-- A successful `writeRow` keeps every existing destination row. -/
theorem writeRow_mono (dest dest' : List DestRow) (tr : DestRow) (w : Bool)
    (h : writeRow dest tr = .ok (dest', w)) : ∀ x ∈ dest, x ∈ dest' := by
  cases hf : dest.find? (fun d => d.id == tr.id) with
  | some ex =>
    simp only [writeRow, hf] at h
    by_cases hcont : (ex.content == tr.content) = true
    · rw [if_pos hcont] at h; cases h; exact fun x hx => hx
    · rw [if_neg hcont] at h; cases h
  | none =>
    simp only [writeRow, hf] at h
    cases h
    exact fun x hx => List.mem_append.mpr (Or.inl hx)

/-- After a successful `writeRow`, the written (or verified-identical)
row is in the destination. -/
theorem writeRow_target_mem (dest dest' : List DestRow) (tr : DestRow)
    (w : Bool) (h : writeRow dest tr = .ok (dest', w)) : tr ∈ dest' := by
  cases hf : dest.find? (fun d => d.id == tr.id) with
  | some ex =>
    simp only [writeRow, hf] at h
    by_cases hcont : (ex.content == tr.content) = true
    · rw [if_pos hcont] at h
      cases h
      have hmem := List.mem_of_find?_eq_some hf
      have hid := List.find?_some hf
      simp only [beq_iff_eq] at hid hcont
      have hex : ex = tr := by
        cases ex; cases tr
        simp_all
      rw [← hex]
      exact hmem
    · rw [if_neg hcont] at h; cases h
  | none =>
    simp only [writeRow, hf] at h
    cases h
    exact List.mem_append.mpr (Or.inr (List.mem_singleton.mpr rfl))

/-- The function `commitRows` keeps every existing destination row. -/
theorem dest_commitRows_mono (et : Nat) (l : List LegacyRow) :
    ∀ (s s' : MigState), commitRows et s l = .ok s' →
      ∀ x ∈ s.dest, x ∈ s'.dest := by
  induction l with
  | nil => intro s s' hc; cases hc; exact fun x hx => hx
  | cons r rs ih =>
    intro s s' hc x hx
    unfold commitRows at hc
    cases hw : writeRow (resolve s et r.pk).2.dest
        ⟨(resolve s et r.pk).1, r.payload⟩ with
    | error e => rw [hw] at hc; cases hc
    | ok q =>
      obtain ⟨dest', wrote⟩ := q
      rw [hw] at hc
      apply ih _ _ hc
      apply writeRow_mono _ _ _ _ hw
      rw [resolve_dest]
      exact hx

/-- A migrated row stays migrated through `commitRows`. -/
theorem migrated_commitRows (et' et : Nat) (l : List LegacyRow)
    (s s' : MigState) (r : LegacyRow) (hm : Migrated s et r)
    (hc : commitRows et' s l = .ok s') : Migrated s' et r := by
  obtain ⟨d, hd, hmem⟩ := hm
  exact ⟨d, lookup_after_commitRows et' l s s' et r.pk d hc hd,
    dest_commitRows_mono et' l s s' hc _ hmem⟩

/-- A migrated row stays migrated through `commitBatch`. -/
theorem migrated_commitBatch (et' et : Nat) (s s' : MigState)
    (batch : List LegacyRow) (r : LegacyRow) (hm : Migrated s et r)
    (hc : commitBatch et' s batch = .ok s') : Migrated s' et r := by
  unfold commitBatch at hc
  cases hr : commitRows et' s batch with
  | error e => rw [hr] at hc; cases hc
  | ok s1 =>
    rw [hr] at hc
    have h1 := migrated_commitRows et' et batch s s1 r hm hr
    cases hl : batch.getLast? with
    | some rr => rw [hl] at hc; cases hc; exact h1
    | none => rw [hl] at hc; cases hc; exact h1

/-- Every row of a successfully committed row list is migrated in the
resulting state. -/
theorem commitRows_migrates (et : Nat) (l : List LegacyRow) :
    ∀ (s s' : MigState), commitRows et s l = .ok s' →
      ∀ r ∈ l, Migrated s' et r := by
  induction l with
  | nil => intro s s' _ r hr; cases hr
  | cons r0 rs ih =>
    intro s s' hc r hr
    unfold commitRows at hc
    cases hw : writeRow (resolve s et r0.pk).2.dest
        ⟨(resolve s et r0.pk).1, r0.payload⟩ with
    | error e => rw [hw] at hc; cases hc
    | ok q =>
      obtain ⟨dest', wrote⟩ := q
      rw [hw] at hc
      rcases List.mem_cons.mp hr with h1 | h1
      · subst h1
        apply migrated_commitRows et et rs _ s' r _ hc
        exact ⟨(resolve s et r.pk).1, lookup_resolve_self s et r.pk,
          writeRow_target_mem _ _ _ _ hw⟩
      · exact ih _ _ hc r h1

/-- Every row of a successfully committed batch is migrated in the state
the commit returns — data commit and checkpoint advance are one atomic
transition. -/
theorem commitBatch_migrates (et : Nat) (s s' : MigState)
    (batch : List LegacyRow) (hc : commitBatch et s batch = .ok s') :
    ∀ r ∈ batch, Migrated s' et r := by
  unfold commitBatch at hc
  cases hr : commitRows et s batch with
  | error e => rw [hr] at hc; cases hc
  | ok s1 =>
    rw [hr] at hc
    have h1 := commitRows_migrates et batch s s1 hr
    cases hl : batch.getLast? with
    | some rr => rw [hl] at hc; cases hc; exact h1
    | none => rw [hl] at hc; cases hc; exact h1

/-- The `Covers` invariant is preserved along the batched commit loop. -/
theorem covers_runBatches (B et : Nat) (rows : List LegacyRow)
    (hs : SortedByPk rows) :
    ∀ (n : Nat) (l : List LegacyRow) (s s' : MigState) (e : Option MigError),
      l.length ≤ n → pending s et rows = l → Covers s et rows →
      runBatches B et s l = (s', e) → Covers s' et rows := by
  intro n
  induction n with
  | zero =>
    intro l s s' e hn hp hcov hr
    have hnil : l = [] := List.eq_nil_of_length_eq_zero (Nat.le_zero.mp hn)
    subst hnil
    unfold runBatches at hr
    cases hr
    exact hcov
  | succ n ih =>
    intro l s s' e hn hp hcov hr
    match l with
    | [] => unfold runBatches at hr; cases hr; exact hcov
    | r :: rest =>
      unfold runBatches at hr
      cases hc : commitBatch et s ((r :: rest).take (B + 1)) with
      | error e' => rw [hc] at hr; cases hr; exact hcov
      | ok s1 =>
        rw [hc] at hr
        have hbne : (r :: rest).take (B + 1) ≠ [] := by simp [List.take]
        obtain ⟨rl, hrl⟩ :=
          Option.isSome_iff_exists.mp (List.getLast?_isSome.mpr hbne)
        have hcp1 : cp s1 et = some rl.pk :=
          cp_commitBatch_self et s s1 _ rl hrl hc
        have hls : SortedByPk (r :: rest) :=
          hp ▸ pending_sorted s et rows hs
        have hcov1 : Covers s1 et rows := by
          intro rr hrr hcvd
          rw [hcp1] at hcvd
          simp only [covered] at hcvd
          by_cases hold : covered (cp s et) rr.pk
          · exact migrated_commitBatch et et s s1 _ rr (hcov rr hrr hold) hc
          · have hpend : rr ∈ pending s et rows :=
              List.mem_filter.mpr ⟨hrr, cpLt_of_not_covered _ _ hold⟩
            rw [hp] at hpend
            have hsplit := List.take_append_drop (B + 1) (r :: rest)
            have hpw : List.Pairwise (fun a b : LegacyRow => a.pk < b.pk)
                ((r :: rest).take (B + 1) ++ (r :: rest).drop (B + 1)) := by
              rw [hsplit]; exact hls
            rcases List.mem_append.mp (hsplit ▸ hpend) with hin | hin
            · exact commitBatch_migrates et s s1 _ hc rr hin
            · exfalso
              have := (List.pairwise_append.mp hpw).2.2 rl
                (List.mem_of_getLast?_eq_some hrl) rr hin
              omega
        have hp1 := pending_after_commitBatch B et s s1 rows (r :: rest) hs hp
          (by simp) hc
        have hlen : ((r :: rest).drop (B + 1)).length ≤ n := by
          simp only [List.length_drop, List.length_cons] at hn ⊢
          omega
        exact ih _ s1 s' e hlen hp1 hcov1 hr

/-- C3: checkpoint soundness. (1) The checkpoint of an entity type
advances exactly at a durable batch commit: a successful `commitBatch`
sets it to the batch's last ordering key — strictly above the previous
checkpoint whenever the batch lies past it, which is the case for every
batch the pipeline commits — and, in the same atomic transition, every
row of the batch is migrated. (2) A failed batch advances nothing: the
pipeline ends at the pre-batch state. (3) No reachable state has a
checkpoint covering unmigrated data: the `Covers` invariant is preserved
by every entity pipeline run. -/
theorem checkpoint_soundness :
    (∀ (et : Nat) (s s' : MigState) (batch : List LegacyRow),
      batch ≠ [] → commitBatch et s batch = .ok s' →
      ∃ rl, batch.getLast? = some rl ∧ cp s' et = some rl.pk ∧
        (∀ r ∈ batch, Migrated s' et r) ∧
        ((∀ r ∈ batch, cpLt (cp s et) r.pk = true) →
          cpLt (cp s et) rl.pk = true)) ∧
    (∀ (B et : Nat) (s : MigState) (l : List LegacyRow) (e : MigError),
      l ≠ [] → commitBatch et s (l.take (B + 1)) = .error e →
      runBatches B et s l = (s, some e)) ∧
    (∀ (B et : Nat) (rows : List LegacyRow) (s s' : MigState)
      (e : Option MigError), SortedByPk rows → Covers s et rows →
      runEntity B et s rows = (s', e) → Covers s' et rows) := by
  refine ⟨?_, ?_, ?_⟩
  · intro et s s' batch hbne hc
    obtain ⟨rl, hrl⟩ :=
      Option.isSome_iff_exists.mp (List.getLast?_isSome.mpr hbne)
    exact ⟨rl, hrl, cp_commitBatch_self et s s' batch rl hrl hc,
      commitBatch_migrates et s s' batch hc,
      fun hall => hall rl (List.mem_of_getLast?_eq_some hrl)⟩
  · intro B et s l e hne hc
    match l with
    | [] => exact absurd rfl hne
    | x :: xs => unfold runBatches; rw [hc]
  · intro B et rows s s' e hs hcov hr
    exact covers_runBatches B et rows hs _ _ s s' e (Nat.le_refl _) rfl hcov hr

/-- C3 witness: a concrete batch commit advancing the checkpoint to the
batch's last key with its rows migrated; a concrete failed batch leaving
the state untouched; and the invariant carried through a concrete
pipeline run. -/
theorem checkpoint_soundness_witness :
    (∃ rl, ([⟨1, 0, 0, none, 5⟩] : List LegacyRow).getLast? = some rl ∧
      cp { mapping := [((0, 1), 0)], nextId := 1, dest := [⟨0, 5⟩],
           checkpoints := [(0, 1)], rowsWritten := 1, rowsSkipped := 0,
           errorsLog := [] } 0 = some rl.pk ∧
      (∀ r ∈ ([⟨1, 0, 0, none, 5⟩] : List LegacyRow),
        Migrated { mapping := [((0, 1), 0)], nextId := 1, dest := [⟨0, 5⟩],
                   checkpoints := [(0, 1)], rowsWritten := 1,
                   rowsSkipped := 0, errorsLog := [] } 0 r) ∧
      ((∀ r ∈ ([⟨1, 0, 0, none, 5⟩] : List LegacyRow),
          cpLt (cp initState 0) r.pk = true) →
        cpLt (cp initState 0) rl.pk = true)) ∧
    runBatches 0 0 { initState with dest := [⟨0, 99⟩] } [⟨1, 0, 0, none, 5⟩] =
      ({ initState with dest := [⟨0, 99⟩] }, some .consistencyViolation) := by
  constructor
  · refine checkpoint_soundness.1 0 initState _ [⟨1, 0, 0, none, 5⟩]
      (by simp) ?_
    simp [commitBatch, commitRows, resolve, lookup, writeRow, initState]
  · refine checkpoint_soundness.2.1 0 0 { initState with dest := [⟨0, 99⟩] }
      [⟨1, 0, 0, none, 5⟩] .consistencyViolation (by simp) ?_
    simp [commitBatch, commitRows, resolve, lookup, writeRow, initState]

/-- C9 witness: a concrete rejection with a TypeError shows its text,
a concrete NotAllowedError rejection shows none; both unhide the retry
button and leave the form unsubmitted. -/
theorem run_rejection_witness :
    run true (.error ⟨true, "TypeError", "TypeError: x"⟩)
        ⟨[], true, "", false⟩ =
      { errors := ["TypeError: x"], retryHidden := false, response := "",
        submitted := false } ∧
    run true (.error ⟨true, "NotAllowedError", "na"⟩) ⟨[], true, "", false⟩ =
      { errors := [], retryHidden := false, response := "",
        submitted := false } := by
  constructor
  · have h := run_rejection ⟨true, "TypeError", "TypeError: x"⟩
      ⟨[], true, "", false⟩
    simpa using h
  · have h := run_rejection ⟨true, "NotAllowedError", "na"⟩
      ⟨[], true, "", false⟩
    simpa using h

/-- C10 witness: a concrete confirmed primary email renders with no
delete button and with the cannot-delete help message. -/
theorem userEmail_primary_no_delete_witness :
    Node.deleteButton false ∉
      renderUserEmail ⟨"id1", "a@b.c", some "t"⟩ true false false ∧
    Node.helpMessage cantDeletePrimaryMsg ∈
      renderUserEmail ⟨"id1", "a@b.c", some "t"⟩ true false false :=
  ⟨(userEmail_primary_no_delete ⟨"id1", "a@b.c", some "t"⟩ false false).1 false,
   (userEmail_primary_no_delete ⟨"id1", "a@b.c", some "t"⟩ false false).2⟩
